import Mathlib

/-!
Verification of the proteus-consul configuration provider.

The Go sources are shallowly embedded: strings are modelled as `List Char`,
Go maps as point functions or association lists, `uint64` change indices as
`Nat` (no arithmetic beyond comparison occurs, so no wrap-around modelling is
needed), and fallible/faulting operations as `Except`.

The repository contains two variants of the provider:
 * `source.go` (package cfgconsul, subtree-list based long polling) is
   embedded in namespace `cfgconsul`;
 * an unnamed historical per-key variant (same package, `New`/`get`/`set`)
   is embedded in namespace `perkey`;
 * the Go standard library `path.Join`/`path.Clean` helpers used by the
   per-key variant are embedded in namespace `gopath`.
-/

/-- Convenience conversion from a string literal to the `List Char`
representation used throughout the embedding. -/
def str (s : String) : List Char := s.toList

/-- Model of Go `strings.Split(s, sep)` for a one-character separator `sep`
(as used on the path separator "/"). Like Go's `strings.Split`, the result
is never the empty list: splitting the empty string yields `[[]]`. -/
def splitChar (sep : Char) : List Char → List (List Char)
  | [] => [[]]
  | c :: cs =>
    match splitChar sep cs with
    | [] => [[]]
    | s :: rest => if c = sep then [] :: s :: rest else (c :: s) :: rest

/-- Inverse of `splitChar`: interleaves the path separator between segments
(Go `strings.Join(segs, "/")`, also the output formatting of `path.Clean`). -/
def joinSegs : List (List Char) → List Char
  | [] => []
  | [s] => s
  | s :: t :: rest => s ++ '/' :: joinSegs (t :: rest)

/-- Model of Go `strings.TrimPrefix(s, pfx)`: drops `pfx` from the front of
`s` when `s` starts with it, otherwise returns `s` unchanged. -/
def trimPfx (pfx s : List Char) : List Char :=
  if pfx.isPrefixOf s then s.drop pfx.length else s

/-- `splitChar` never returns the empty list (mirrors Go `strings.Split`,
which always returns at least one element for a non-empty separator). -/
theorem splitChar_ne_nil (sep : Char) (l : List Char) : splitChar sep l ≠ [] := by
  induction l with
  | nil => simp [splitChar]
  | cons c cs ih =>
    simp only [splitChar]
    cases h : splitChar sep cs with
    | nil => simp
    | cons s rest =>
      by_cases hc : c = sep <;> simp [hc]

/-- Splitting a concatenation at an explicit separator occurrence splits each
part independently. -/
theorem splitChar_append (sep : Char) (xs ys : List Char) :
    splitChar sep (xs ++ sep :: ys) = splitChar sep xs ++ splitChar sep ys := by
  induction xs with
  | nil =>
    simp only [List.nil_append, splitChar]
    cases h : splitChar sep ys with
    | nil => exact absurd h (splitChar_ne_nil sep ys)
    | cons s rest => simp
  | cons c cs ih =>
    cases h : splitChar sep cs with
    | nil => exact absurd h (splitChar_ne_nil sep cs)
    | cons s rest =>
      simp only [List.cons_append, splitChar, List.append_eq]
      rw [ih, h]
      simp only [List.cons_append]
      by_cases hc : c = sep <;> simp [hc]

/-- A string not containing the separator is a single segment. -/
theorem splitChar_eq_single (sep : Char) (l : List Char) (h : sep ∉ l) :
    splitChar sep l = [l] := by
  induction l with
  | nil => simp [splitChar]
  | cons c cs ih =>
    simp only [List.mem_cons, not_or] at h
    have hc : ¬c = sep := fun hc => h.1 hc.symm
    simp [splitChar, ih h.2, hc]

/-- The number of segments is the number of separator occurrences plus one. -/
theorem splitChar_length (sep : Char) (l : List Char) :
    (splitChar sep l).length = l.count sep + 1 := by
  induction l with
  | nil => simp [splitChar]
  | cons c cs ih =>
    simp only [splitChar]
    cases h : splitChar sep cs with
    | nil => exact absurd h (splitChar_ne_nil sep cs)
    | cons s rest =>
      rw [h] at ih
      by_cases hc : c = sep
      · subst hc
        simp_all [List.count_cons]
      · simp_all [List.count_cons, Ne.symm hc]

/-- Stripping the empty string is the identity. -/
theorem trimPfx_nil (s : List Char) : trimPfx [] s = s := by
  simp [trimPfx, List.isPrefixOf]

/-- Stripping a string from itself leaves the empty string. -/
theorem trimPfx_self (s : List Char) : trimPfx s s = [] := by
  simp [trimPfx, List.isPrefixOf_iff_prefix, List.prefix_refl, List.drop_length]

/-- Stripping a proper front part of a concatenation leaves the tail. -/
theorem trimPfx_append (pfx rest : List Char) : trimPfx pfx (pfx ++ rest) = rest := by
  simp [trimPfx, List.isPrefixOf_iff_prefix, List.prefix_append, List.drop_left]

namespace cfgconsul

/-- Outcome of processing one raw key from a consul listing, `source.go`
lines 177-198: skipped silently (key equal to the namespace marker),
skipped with an "Ignoring ..." diagnostic, or mapped to a parameter
`(set name, parameter name)`. -/
inductive KeyOutcome where
  | skip
  | skipDiag
  | param (setName paramName : List Char)
deriving DecidableEq

/-- Key processing of `source.go` `list`, lines 177-192: strip the
configured path namespace from the raw key (`strings.TrimPrefix`), skip the
empty remainder, split the rest on "/" (`strings.Split`); more than two
segments is ignored with a diagnostic, two segments are (set, name), one
segment is the parameter name in the unnamed set. -/
def classifyKey (pfx key : List Char) : KeyOutcome :=
  let k := trimPfx pfx key
  if k = [] then .skip
  else
    let keySplitted := splitChar '/' k
    if keySplitted.length > 2 then .skipDiag
    else if keySplitted.length = 2 then
      .param (keySplitted.getD 0 []) (keySplitted.getD 1 [])
    else .param [] (keySplitted.getD 0 [])

/-- The Key Mapper `split` on an already-stripped key: `classifyKey` with
nothing to strip, collapsing both skip outcomes into the not-ok (discard)
signal `none`. -/
def splitKey (k : List Char) : Option (List Char × List Char) :=
  match classifyKey [] k with
  | .param s n => some (s, n)
  | _ => none

/-- Change-index bookkeeping of `source.go` `list`, lines 166-174: the
conditional reset of the stored cursor to zero when the returned subtree
index went backwards is followed by an unconditional assignment of the
returned index, so the reset value is a dead store and the function always
stores the returned index. -/
def listWaitIxUpdate (waitIx lastIndex : Nat) : Nat :=
  let _waitIxAfterReset : Nat := if lastIndex < waitIx then 0 else waitIx
  lastIndex

/-- The sequence of cursors handed to successive list requests
(`QueryOptions.WaitIndex`), starting from stored cursor `w` (zero for a
fresh provider), when the store reports the change indices `ixs` on the
successive responses. -/
def cursorsUsed : Nat → List Nat → List Nat
  | w, [] => [w]
  | w, i :: rest => w :: cursorsUsed (listWaitIxUpdate w i) rest

end cfgconsul

/-- Claim C1 (code evaluation at the failing input): for the observed store
index sequence [5, 3, 7] the cursors actually used on successive requests
are [0, 5, 3, 7], not the claimed [0, 5, 0, 7]: the reset of the stored
cursor to zero on an index decrease (source.go line 170) is a dead store,
unconditionally overwritten with the returned index on line 174. -/
theorem c1_waitindex_reset_dead :
    cfgconsul.cursorsUsed 0 [5, 3, 7] = [0, 5, 3, 7] ∧
    cfgconsul.listWaitIxUpdate 5 3 = 3 := by
  constructor <;> rfl

/-- Claim C2 (counterexample): a stripped key with zero separators is not
discarded by `split`; it is mapped to the parameter (set = "", name = key),
contradicting the claim that zero-separator keys report discard. -/
theorem c2_split_counterexample :
    (str "loglevel").count '/' = 0 ∧
    cfgconsul.splitKey (str "loglevel") = some ([], str "loglevel") := by
  constructor <;> decide

/-- Claim C2 (amended): a stripped key with exactly one separator splits
into the two segments verbatim as (set, name); a non-empty key with zero
separators is kept as (set = "", name = key); a key with two or more
separators (more than two segments), or the empty key, is discarded. -/
theorem c2_split_amended (k : List Char) :
    (∀ a b, splitChar '/' k = [a, b] → cfgconsul.splitKey k = some (a, b)) ∧
    (k ≠ [] → k.count '/' = 0 → cfgconsul.splitKey k = some ([], k)) ∧
    (2 ≤ k.count '/' → cfgconsul.splitKey k = none) ∧
    (k = [] → cfgconsul.splitKey k = none) := by
  refine ⟨?_, ?_, ?_, ?_⟩
  · intro a b hab
    have hk : k ≠ [] := by
      intro hk; subst hk; simp [splitChar] at hab
    simp [cfgconsul.splitKey, cfgconsul.classifyKey, trimPfx_nil, hk, hab]
  · intro hk hcount
    have hsplit : splitChar '/' k = [k] :=
      splitChar_eq_single '/' k (List.count_eq_zero.mp hcount)
    simp [cfgconsul.splitKey, cfgconsul.classifyKey, trimPfx_nil, hk, hsplit]
  · intro hcount
    have hlen : 2 < (splitChar '/' k).length := by
      rw [splitChar_length]; omega
    have hk : k ≠ [] := by
      intro hk; subst hk; simp [splitChar] at hlen
    simp [cfgconsul.splitKey, cfgconsul.classifyKey, trimPfx_nil, hk, hlen]
  · intro hk; subst hk
    simp [cfgconsul.splitKey, cfgconsul.classifyKey, trimPfx_nil]

/-- Witness for the amended claim C2 at concrete keys. -/
theorem c2_split_amended_witness :
    cfgconsul.splitKey (str "a/b") = some (str "a", str "b") ∧
    cfgconsul.splitKey (str "n") = some ([], str "n") ∧
    cfgconsul.splitKey (str "a/b/c") = none ∧
    cfgconsul.splitKey [] = none := by
  refine ⟨(c2_split_amended (str "a/b")).1 (str "a") (str "b") (by decide),
          (c2_split_amended (str "n")).2.1 (by decide) (by decide),
          (c2_split_amended (str "a/b/c")).2.2.1 (by decide),
          (c2_split_amended []).2.2.2 rfl⟩

/-- Claim C3: for every raw key in a listing, after stripping the
configured namespace path: a key equal to it exactly is skipped silently;
one segment yields (set = "", name = segment); two segments yield
(set = first, name = second); more than two segments is skipped with a
diagnostic. -/
theorem c3_key_classification (pfx key : List Char) :
    (key = pfx → cfgconsul.classifyKey pfx key = .skip) ∧
    (∀ a, trimPfx pfx key ≠ [] → splitChar '/' (trimPfx pfx key) = [a] →
      cfgconsul.classifyKey pfx key = .param [] a) ∧
    (∀ a b, splitChar '/' (trimPfx pfx key) = [a, b] →
      cfgconsul.classifyKey pfx key = .param a b) ∧
    (2 < (splitChar '/' (trimPfx pfx key)).length →
      cfgconsul.classifyKey pfx key = .skipDiag) := by
  refine ⟨?_, ?_, ?_, ?_⟩
  · intro hk; subst hk
    simp [cfgconsul.classifyKey, trimPfx_self]
  · intro a hne ha
    simp [cfgconsul.classifyKey, hne, ha]
  · intro a b hab
    have hne : trimPfx pfx key ≠ [] := by
      intro h; rw [h] at hab; simp [splitChar] at hab
    simp [cfgconsul.classifyKey, hne, hab]
  · intro hlen
    have hne : trimPfx pfx key ≠ [] := by
      intro h; rw [h] at hlen; simp [splitChar] at hlen
    simp [cfgconsul.classifyKey, hne, hlen]

/-- Witness for claim C3 at concrete keys under the namespace "cfg/". -/
theorem c3_key_classification_witness :
    cfgconsul.classifyKey (str "cfg/") (str "cfg/") = .skip ∧
    cfgconsul.classifyKey (str "cfg/") (str "cfg/loglevel") = .param [] (str "loglevel") ∧
    cfgconsul.classifyKey (str "cfg/") (str "cfg/db/host") = .param (str "db") (str "host") ∧
    cfgconsul.classifyKey (str "cfg/") (str "cfg/a/b/c") = .skipDiag := by
  refine ⟨(c3_key_classification _ _).1 rfl,
          (c3_key_classification _ _).2.1 (str "loglevel") (by decide) (by decide),
          (c3_key_classification _ _).2.2.1 (str "db") (str "host") (by decide),
          (c3_key_classification _ _).2.2.2 (by decide)⟩

/-- The parameter table `types.ParamValues` (map from set name to map from
parameter name to value), modelled by its lookup function. -/
abbrev ParamValues := List Char → List Char → Option (List Char)

/-- The freshly allocated empty table (`types.ParamValues{}`). -/
def pvEmpty : ParamValues := fun _ _ => none

/-- Insertion `ret[setName][paramName] = value`, with the set-level map
created lazily when absent (source.go lines 199-205); lookups after the
insertion see the new value at exactly that (set, name). -/
def pvInsert (pv : ParamValues) (setName paramName value : List Char) : ParamValues :=
  fun s n => if s = setName ∧ n = paramName then some value else pv s n

namespace cfgconsul

/-- The body of the pair loop of `list` (source.go lines 177-206) for one
raw key-value pair: classify the key; on skip outcomes the table is left
alone; otherwise the known-parameter oracle (`r.paramNames.Get`) is
consulted and only a recognized (set, name) is inserted. -/
def listStep (oracle : List Char → List Char → Bool) (pfx : List Char)
    (ret : ParamValues) (pair : List Char × List Char) : ParamValues :=
  match classifyKey pfx pair.1 with
  | .skip => ret
  | .skipDiag => ret
  | .param setName paramName =>
    if oracle setName paramName then pvInsert ret setName paramName pair.2
    else ret

/-- The table produced by one poll cycle of `list` (source.go lines
176-207): fold the pair loop over the listing starting from the fresh
empty table. -/
def list (oracle : List Char → List Char → Bool) (pfx : List Char)
    (kvPairs : List (List Char × List Char)) : ParamValues :=
  kvPairs.foldl (listStep oracle pfx) pvEmpty

end cfgconsul

/-- Auxiliary invariant for claim C4: the pair-loop fold preserves the
property that every entry of the table was recognized by the oracle. -/
theorem list_foldl_known (oracle : List Char → List Char → Bool) (pfx : List Char) :
    ∀ (pairs : List (List Char × List Char)) (acc : ParamValues),
      (∀ s n v, acc s n = some v → oracle s n = true) →
      ∀ s n v, pairs.foldl (cfgconsul.listStep oracle pfx) acc s n = some v →
        oracle s n = true := by
  intro pairs
  induction pairs with
  | nil => intro acc hacc s n v h; exact hacc s n v h
  | cons p rest ih =>
    intro acc hacc s n v h
    simp only [List.foldl_cons] at h
    refine ih (cfgconsul.listStep oracle pfx acc p) ?_ s n v h
    intro s' n' v' h'
    unfold cfgconsul.listStep at h'
    cases hcl : cfgconsul.classifyKey pfx p.1 with
    | skip => rw [hcl] at h'; exact hacc _ _ _ h'
    | skipDiag => rw [hcl] at h'; exact hacc _ _ _ h'
    | param sN pN =>
      rw [hcl] at h'
      dsimp only at h'
      by_cases ho : oracle sN pN = true
      · rw [if_pos ho] at h'
        unfold pvInsert at h'
        by_cases hsn : s' = sN ∧ n' = pN
        · obtain ⟨rfl, rfl⟩ := hsn
          exact ho
        · rw [if_neg hsn] at h'
          exact hacc _ _ _ h'
      · rw [if_neg ho] at h'
        exact hacc _ _ _ h'

/-- Claim C4: for every input listing and every known-parameter oracle, the
table returned by a poll cycle contains only entries whose (set, name) the
oracle recognized; unrecognized keys never reach the table. -/
theorem c4_table_only_known (oracle : List Char → List Char → Bool)
    (pfx : List Char) (kvPairs : List (List Char × List Char))
    (s n v : List Char)
    (h : cfgconsul.list oracle pfx kvPairs s n = some v) :
    oracle s n = true :=
  list_foldl_known oracle pfx kvPairs pvEmpty
    (fun _ _ _ h' => Option.noConfusion h') s n v h

/-- Witness for claim C4: a concrete listing with one recognized key. -/
theorem c4_table_only_known_witness :
    (fun s n => decide (s = ([] : List Char)) && decide (n = str "x")) [] (str "x") = true :=
  c4_table_only_known (fun s n => decide (s = ([] : List Char)) && decide (n = str "x"))
    (str "cfg/") [(str "cfg/x", str "1")] [] (str "x") (str "1") (by decide)

namespace cfgconsul

/-- Provider state relevant to the lifecycle claims: the normalized path
namespace and the worker cancellation function `stopFn`; `none` models the
Go nil zero value of the field. -/
structure ProviderState where
  pfx : List Char
  stopFn : Option Unit

/-- `NewFromReference` (source.go lines 38-50): normalizes the namespace to
end with "/" and leaves every other field at its zero value; in particular
`stopFn` is the nil function. -/
def NewFromReference (p : List Char) : ProviderState :=
  { pfx := if ('/' :: []).isSuffixOf p then p else p ++ ['/'],
    stopFn := none }

/-- `Stop` (source.go lines 85-88): the first statement calls the stored
stop function; calling it while it is still nil is a runtime fault
(modelled as `Except.error`), otherwise the worker is cancelled and
joined. -/
def Stop (stopFn : Option Unit) : Except Unit Unit :=
  match stopFn with
  | none => .error ()
  | some _ => .ok ()

/-- Result of the chained `Peek` for the consul URL (an external lookup):
the lookup itself can fail, succeed while reporting no value recorded
(Go nil pointer), or produce a URL. -/
inductive PeekResult where
  | err
  | absent
  | found (uri : List Char)

/-- The start-up errors `Watch` can return to the embedder. -/
inductive StartErr where
  | peekFailed
  | missingRef (name : List Char)
  | clientFailed
  | listFailed
deriving DecidableEq

/-- The reference name embedded in the missing-reference start-up error
(source.go lines 226-231): the bare parameter name, qualified as
"set.name" when the set name is non-empty. -/
def refDisplayName (setName paramName : List Char) : List Char :=
  if setName ≠ [] then setName ++ '.' :: paramName else paramName

/-- `parametersFromReference` (source.go lines 215-238): a Peek error is
propagated unchanged; a successful Peek reporting the value absent (nil)
becomes the descriptive error naming the missing reference; otherwise the
resolved URL is returned. -/
def parametersFromReference (setName paramName : List Char) (peek : PeekResult) :
    Except StartErr (List Char) :=
  match peek with
  | .err => .error .peekFailed
  | .absent => .error (.missingRef (refDisplayName setName paramName))
  | .found uri => .ok uri

/-- Result of `Watch`: either a start-up error returned synchronously to
the embedder (no background worker started), or the initial table with the
worker launched. -/
inductive WatchResult where
  | failed (e : StartErr)
  | started (initial : ParamValues)

/-- `Watch` (source.go lines 92-130): resolve the consul URL via the
chained reference, construct the client, run one synchronous list; each
failure returns immediately. Only after all three succeed is the
cancellation function assigned (`r.stopFn = runnerCancel`, line 124) and
the background worker launched. Client construction and the first list are
external outcomes passed in as `Except` values. -/
def Watch (st : ProviderState) (setName paramName : List Char) (peek : PeekResult)
    (clientRes : Except StartErr Unit) (listRes : Except StartErr ParamValues) :
    WatchResult × ProviderState :=
  match parametersFromReference setName paramName peek with
  | .error e => (.failed e, st)
  | .ok _ =>
    match clientRes with
    | .error e => (.failed e, st)
    | .ok _ =>
      match listRes with
      | .error e => (.failed e, st)
      | .ok t => (.started t, { st with stopFn := some () })

end cfgconsul

/-- Claim C8: when the upstream reference lookup succeeds but reports the
referenced value absent, Watch fails with the error naming the missing
reference — "set.name" for a non-empty set name and the bare "name"
otherwise — and the provider state is untouched, so no watch loop is
started. -/
theorem c8_missing_reference_error (setName paramName : List Char)
    (st : cfgconsul.ProviderState) (clientRes : Except cfgconsul.StartErr Unit)
    (listRes : Except cfgconsul.StartErr ParamValues) :
    (cfgconsul.Watch st setName paramName .absent clientRes listRes).1 =
      .failed (.missingRef (cfgconsul.refDisplayName setName paramName)) ∧
    (setName ≠ [] →
      cfgconsul.refDisplayName setName paramName = setName ++ '.' :: paramName) ∧
    (setName = [] → cfgconsul.refDisplayName setName paramName = paramName) ∧
    (cfgconsul.Watch st setName paramName .absent clientRes listRes).2 = st := by
  refine ⟨rfl, ?_, ?_, rfl⟩
  · intro h; simp [cfgconsul.refDisplayName, h]
  · intro h; simp [cfgconsul.refDisplayName, h]

/-- Witness for claim C8 at the concrete references ("db", "url") and
("", "url"). -/
theorem c8_missing_reference_error_witness :
    (cfgconsul.Watch ⟨str "cfg/", none⟩ (str "db") (str "url") .absent
        (.ok ()) (.ok pvEmpty)).1 =
      .failed (.missingRef (cfgconsul.refDisplayName (str "db") (str "url"))) ∧
    cfgconsul.refDisplayName (str "db") (str "url") = str "db" ++ '.' :: str "url" ∧
    cfgconsul.refDisplayName [] (str "url") = str "url" ∧
    (cfgconsul.Watch ⟨str "cfg/", none⟩ (str "db") (str "url") .absent
        (.ok ()) (.ok pvEmpty)).2 = ⟨str "cfg/", none⟩ := by
  refine ⟨?_, ?_, ?_, ?_⟩
  · exact (c8_missing_reference_error (str "db") (str "url") ⟨str "cfg/", none⟩
      (.ok ()) (.ok pvEmpty)).1
  · exact (c8_missing_reference_error (str "db") (str "url") ⟨str "cfg/", none⟩
      (.ok ()) (.ok pvEmpty)).2.1 (by decide)
  · exact (c8_missing_reference_error [] (str "url") ⟨str "cfg/", none⟩
      (.ok ()) (.ok pvEmpty)).2.2.1 rfl
  · exact (c8_missing_reference_error (str "db") (str "url") ⟨str "cfg/", none⟩
      (.ok ()) (.ok pvEmpty)).2.2.2

/-- Claim C10: a fresh provider has a nil stop function; calling Stop then
faults. The stop function is assigned only when Watch returns successfully:
a failed Watch leaves it untouched, a started Watch sets it. -/
theorem c10_stop_before_watch (p : List Char) :
    (cfgconsul.NewFromReference p).stopFn = none ∧
    cfgconsul.Stop none = .error () ∧
    (∀ st sn pn pk cr lr e,
      (cfgconsul.Watch st sn pn pk cr lr).1 = .failed e →
      (cfgconsul.Watch st sn pn pk cr lr).2.stopFn = st.stopFn) ∧
    (∀ st sn pn pk cr lr t,
      (cfgconsul.Watch st sn pn pk cr lr).1 = .started t →
      (cfgconsul.Watch st sn pn pk cr lr).2.stopFn = some ()) := by
  refine ⟨rfl, rfl, ?_, ?_⟩
  · intro st sn pn pk cr lr e h
    cases pk with
    | err => rfl
    | absent => rfl
    | found uri =>
      cases cr with
      | error e' => rfl
      | ok u =>
        cases lr with
        | error e' => rfl
        | ok t => simp [cfgconsul.Watch, cfgconsul.parametersFromReference] at h
  · intro st sn pn pk cr lr t h
    cases pk with
    | err => simp [cfgconsul.Watch, cfgconsul.parametersFromReference] at h
    | absent => simp [cfgconsul.Watch, cfgconsul.parametersFromReference] at h
    | found uri =>
      cases cr with
      | error e' => simp [cfgconsul.Watch, cfgconsul.parametersFromReference] at h
      | ok u =>
        cases lr with
        | error e' => simp [cfgconsul.Watch, cfgconsul.parametersFromReference] at h
        | ok t' => rfl

/-- Witness for claim C10 at concrete inputs: a failed Watch (Peek error)
keeps the nil stop function, a successful Watch assigns it. -/
theorem c10_stop_before_watch_witness :
    (cfgconsul.NewFromReference (str "cfg")).stopFn = none ∧
    cfgconsul.Stop none = .error () ∧
    (cfgconsul.Watch ⟨str "cfg/", none⟩ [] (str "url") .err
        (.ok ()) (.ok pvEmpty)).2.stopFn =
      (⟨str "cfg/", none⟩ : cfgconsul.ProviderState).stopFn ∧
    (cfgconsul.Watch ⟨str "cfg/", none⟩ [] (str "url") (.found (str "u"))
        (.ok ()) (.ok pvEmpty)).2.stopFn = some () := by
  refine ⟨(c10_stop_before_watch (str "cfg")).1,
          (c10_stop_before_watch (str "cfg")).2.1,
          (c10_stop_before_watch (str "cfg")).2.2.1 _ _ _ _ _ _
            cfgconsul.StartErr.peekFailed rfl,
          (c10_stop_before_watch (str "cfg")).2.2.2 _ _ _ _ _ _ pvEmpty rfl⟩

namespace perkey

/-- A recorded consul value with its per-key change index (part_000
`consulValue`). -/
structure ConsulValue where
  value : List Char
  lastIndex : Nat

/-- The nested Go map `consulValues` (`map[string]map[string]consulValue`)
as nested association lists; the outer `Option` distinguishes the nil map
— the zero value of the `protected.values` field, which no operation of
this variant ever allocates — from an allocated map. -/
abbrev ConsulValues := Option (List (List Char × List (List Char × ConsulValue)))

/-- Go map insertion on an association list: replace the binding when the
key is present, append it otherwise. -/
def insertAssoc {β : Type} : List (List Char × β) → List Char → β → List (List Char × β)
  | [], k, v => [(k, v)]
  | (k', v') :: rest, k, v =>
    if k' = k then (k, v) :: rest else (k', v') :: insertAssoc rest k v

/-- Per-key provider state: the path namespace and the protected values
table. -/
structure Provider where
  pfx : List Char
  values : ConsulValues

/-- The per-key variant `New` (part_000 lines 30-38): stores the namespace
and the chained resolver; every other field keeps its zero value — in
particular `protected.values` stays the nil map. -/
def New (p : List Char) : Provider :=
  { pfx := p, values := none }

/-- `set` (part_000 lines 139-150): look up the per-set inner map,
allocating it when absent. Reading `r.protected.values[setName]` on the
nil outer map yields not-found, and the following write
`r.protected.values[setName] = set` is an assignment to a nil map — a
runtime fault, modelled as `Except.error`. On an allocated map both
branches succeed. -/
def set (values : ConsulValues) (setName paramName value : List Char)
    (waitIndex : Nat) : Except Unit ConsulValues :=
  match values with
  | none => .error ()
  | some m =>
    match m.lookup setName with
    | none => .ok (some (insertAssoc m setName [(paramName, ⟨value, waitIndex⟩)]))
    | some inner =>
      .ok (some (insertAssoc m setName (insertAssoc inner paramName ⟨value, waitIndex⟩)))

/-- Outcome of the blocking `kv.Get` call: transport error, key absent
(nil `KVPair`), or a pair carrying the value and `meta.LastIndex`. -/
inductive GetOutcome where
  | err
  | missing
  | pair (value : List Char) (lastIndex : Nat)

/-- The stored per-key wait index (part_000 lines 117-122): reads of the
nil or partial map are safe and default to zero. -/
def lookupWaitIndex (values : ConsulValues) (setName paramName : List Char) : Nat :=
  match values with
  | none => 0
  | some m =>
    match m.lookup setName with
    | none => 0
    | some inner =>
      match inner.lookup paramName with
      | none => 0
      | some cv => cv.lastIndex

/-- `get` (part_000 lines 112-137): a transport error is returned to the
caller (no fault); dereferencing `kvPair.Value` on a nil pair (absent key)
faults; on a successful fetch the value is recorded via `set` together
with `meta.LastIndex`, so a fault of `set` is a fault of `get`. -/
def get (values : ConsulValues) (setName paramName : List Char)
    (outcome : GetOutcome) : Except Unit (Option (List Char) × ConsulValues) :=
  match outcome with
  | .err => .ok (none, values)
  | .missing => .error ()
  | .pair v ix =>
    match set values setName paramName v ix with
    | .error e => .error e
    | .ok values' => .ok (some v, values')

end perkey

/-- Claim C9: in the per-key variant the protected values table starts as
the nil map and is never allocated, so the recording step `set` — and with
it every successful per-key `get` — faults on the nil-map insertion, for
every (set, name), value and index. -/
theorem c9_nil_values_fault (p setName paramName v : List Char) (ix : Nat) :
    (perkey.New p).values = none ∧
    perkey.set none setName paramName v ix = .error () ∧
    perkey.get none setName paramName (.pair v ix) = .error () :=
  ⟨rfl, rfl, rfl⟩

namespace cfgconsul

/-- Outcome of one `r.list(ctx)` call as seen by the worker loop: a fresh
table, or an error that either is or is not `context.Canceled`. -/
inductive PollResult where
  | ok (table : ParamValues)
  | err (canceled : Bool)

/-- Observable actions of the background worker: a diagnostic log line, a
`time.Sleep` of the given number of seconds, or an `updater.Update` with a
new table. -/
inductive Event where
  | logMsg
  | sleep (secs : Nat)
  | update (table : ParamValues)

/-- The fixed backoff delay `time.Sleep(time.Second)` of the worker loop
(source.go line 145), in seconds. -/
def backoffDelay : Nat := 1

/-- Trace semantics of `updateWorker` (source.go lines 133-151). Each input
element is one loop iteration: whether `ctx.Err()` is non-nil at the top of
the loop, and, when the loop continues, the outcome of `r.list(ctx)`. A
cancelled context ends the loop; a `context.Canceled` error logs and
continues (the next top-of-loop check exits); any other error logs, sleeps
the fixed delay and continues; success publishes the table. -/
def updateWorker : List (Bool × PollResult) → List Event
  | [] => []
  | (ctxDone, res) :: rest =>
    if ctxDone then []
    else
      match res with
      | .ok t => .update t :: updateWorker rest
      | .err true => .logMsg :: updateWorker rest
      | .err false => .logMsg :: .sleep backoffDelay :: updateWorker rest

end cfgconsul

/-- Claim C6: a poll failure that is not a cancellation makes the worker
log, sleep the fixed constant delay and continue with the remaining
iterations — the loop never terminates on such an error — and every sleep
the worker ever performs has that same constant duration (no exponential
growth, no jitter, no cap). Errors are only logged, never returned: the
trace type has no error outcome. -/
theorem c6_fixed_backoff :
    (∀ rest, cfgconsul.updateWorker ((false, .err false) :: rest) =
      .logMsg :: .sleep cfgconsul.backoffDelay :: cfgconsul.updateWorker rest) ∧
    (∀ sched d, cfgconsul.Event.sleep d ∈ cfgconsul.updateWorker sched →
      d = cfgconsul.backoffDelay) := by
  constructor
  · intro rest; rfl
  · intro sched
    induction sched with
    | nil => intro d h; simp [cfgconsul.updateWorker] at h
    | cons it rest ih =>
      intro d h
      obtain ⟨ctxDone, res⟩ := it
      by_cases hc : ctxDone = true
      · subst hc; simp [cfgconsul.updateWorker] at h
      · rw [Bool.not_eq_true] at hc
        subst hc
        cases res with
        | ok t =>
          simp only [cfgconsul.updateWorker, if_neg Bool.false_ne_true,
            List.mem_cons] at h
          rcases h with h | h
          · exact absurd h (by simp)
          · exact ih d h
        | err canceled =>
          cases canceled with
          | true =>
            simp only [cfgconsul.updateWorker, if_neg Bool.false_ne_true,
              List.mem_cons] at h
            rcases h with h | h
            · exact absurd h (by simp)
            · exact ih d h
          | false =>
            simp only [cfgconsul.updateWorker, if_neg Bool.false_ne_true,
              List.mem_cons] at h
            rcases h with h | h | h
            · exact absurd h (by simp)
            · exact cfgconsul.Event.sleep.inj h
            · exact ih d h

/-- Witness for claim C6: one failing iteration produces exactly the log
line and the one-second sleep, and that sleep has the fixed duration. -/
theorem c6_fixed_backoff_witness :
    cfgconsul.updateWorker [(false, .err false)] =
      [.logMsg, .sleep cfgconsul.backoffDelay] ∧
    (1 : Nat) = cfgconsul.backoffDelay := by
  constructor
  · exact c6_fixed_backoff.1 []
  · exact c6_fixed_backoff.2 [(false, .err false)] 1
      (by simp [cfgconsul.updateWorker, cfgconsul.backoffDelay])

namespace watchmodel

/-- Program counter of the background worker (source.go lines 133-151). -/
inductive WorkerPC where
  | atTop
  | polling
  | finished
deriving DecidableEq

/-- Program counter of the caller of `Stop` (source.go lines 85-88). -/
inductive StopPC where
  | idle
  | waiting
  | returned
deriving DecidableEq

/-- Shared state of the two threads: the cancellation flag of the worker
context, the `stopped` WaitGroup counter, and both program counters. -/
structure SysState where
  cancelled : Bool
  wgCount : Nat
  worker : WorkerPC
  stopper : StopPC

/-- Observable labels: internal step, an `updater.Update` delivered to the
consumer, the backoff sleep, or `Stop` returning to its caller. -/
inductive Label where
  | tau
  | update
  | sleep
  | stopRet
deriving DecidableEq

/-- Interleaving small-step semantics of `Stop` and the worker loop. The
worker checks `ctx.Err()` at the top of each iteration and exits — running
the deferred `stopped.Done()` — once the context is cancelled. An in-flight
`list` may still complete successfully after cancellation (`pollOk` has no
cancellation premise, modelling a poll that was in flight when `Stop` was
called), may return `context.Canceled` (possible only once the context is
cancelled), or may return another error, after which the worker sleeps the
fixed backoff. `Stop` first runs `r.stopFn()` (cancels the context), then
blocks in `r.stopped.Wait()` until the counter is zero. -/
inductive Step : SysState → Label → SysState → Prop where
  | checkExit (s : SysState) :
      s.worker = .atTop → s.cancelled = true →
      Step s .tau { s with worker := .finished, wgCount := s.wgCount - 1 }
  | checkCont (s : SysState) :
      s.worker = .atTop → s.cancelled = false →
      Step s .tau { s with worker := .polling }
  | pollOk (s : SysState) :
      s.worker = .polling →
      Step s .update { s with worker := .atTop }
  | pollErrCancel (s : SysState) :
      s.worker = .polling → s.cancelled = true →
      Step s .tau { s with worker := .atTop }
  | pollErrOther (s : SysState) :
      s.worker = .polling →
      Step s .sleep { s with worker := .atTop }
  | stopCancel (s : SysState) :
      s.stopper = .idle →
      Step s .tau { s with cancelled := true, stopper := .waiting }
  | stopReturn (s : SysState) :
      s.stopper = .waiting → s.wgCount = 0 →
      Step s .stopRet { s with stopper := .returned }

/-- The state right after a successful `Watch`: `stopped.Add(1)` executed
and the worker launched, context alive, `Stop` not yet called. -/
def init : SysState :=
  { cancelled := false, wgCount := 1, worker := .atTop, stopper := .idle }

/-- Executions: the system goes from `s` to `s'` emitting the labels
`tr`. -/
inductive Reaches : SysState → List Label → SysState → Prop where
  | refl (s : SysState) : Reaches s [] s
  | step {s s' s'' : SysState} {l : Label} {ls : List Label} :
      Step s l s' → Reaches s' ls s'' → Reaches s (l :: ls) s''

/-- Invariant: once `Stop` has returned the WaitGroup counter is zero, and
a zero counter means the worker has finished. -/
def Inv (s : SysState) : Prop :=
  (s.stopper = .returned → s.wgCount = 0) ∧
  (s.wgCount = 0 → s.worker = .finished)

theorem inv_init : Inv init := by
  constructor <;> intro h <;> simp [init] at h

theorem inv_step {s s' : SysState} {l : Label} (hinv : Inv s)
    (h : Step s l s') : Inv s' := by
  obtain ⟨h1, h2⟩ := hinv
  cases h with
  | checkExit hw hc =>
    refine ⟨fun hr => ?_, fun _ => rfl⟩
    have := h1 hr
    show s.wgCount - 1 = 0
    omega
  | checkCont hw hc =>
    refine ⟨h1, fun hz => ?_⟩
    have := h2 hz
    rw [hw] at this
    exact absurd this (by simp)
  | pollOk hw =>
    refine ⟨h1, fun hz => ?_⟩
    have := h2 hz
    rw [hw] at this
    exact absurd this (by simp)
  | pollErrCancel hw hc =>
    refine ⟨h1, fun hz => ?_⟩
    have := h2 hz
    rw [hw] at this
    exact absurd this (by simp)
  | pollErrOther hw =>
    refine ⟨h1, fun hz => ?_⟩
    have := h2 hz
    rw [hw] at this
    exact absurd this (by simp)
  | stopCancel hs =>
    exact ⟨fun hr => absurd hr (by simp), h2⟩
  | stopReturn hs hz =>
    exact ⟨fun _ => hz, h2⟩

/-- From a state where `Stop` has returned, every step keeps `Stop`
returned and never emits an update; in fact no step is enabled at all. -/
theorem step_returned {s s' : SysState} {l : Label} (hinv : Inv s)
    (hr : s.stopper = .returned) (h : Step s l s') :
    s'.stopper = .returned ∧ l ≠ .update := by
  have hw : s.worker = .finished := hinv.2 (hinv.1 hr)
  cases h with
  | checkExit h1 h2 => rw [hw] at h1; exact absurd h1 (by simp)
  | checkCont h1 h2 => rw [hw] at h1; exact absurd h1 (by simp)
  | pollOk h1 => rw [hw] at h1; exact absurd h1 (by simp)
  | pollErrCancel h1 h2 => rw [hw] at h1; exact absurd h1 (by simp)
  | pollErrOther h1 => rw [hw] at h1; exact absurd h1 (by simp)
  | stopCancel h1 => rw [hr] at h1; exact absurd h1 (by simp)
  | stopReturn h1 h2 => rw [hr] at h1; exact absurd h1 (by simp)

theorem no_update_after_returned {tr : List Label} {s s' : SysState}
    (h : Reaches s tr s') : Inv s → s.stopper = .returned →
    Label.update ∉ tr := by
  induction h with
  | refl s => intro _ _; simp
  | step hst hrest ih =>
    intro hinv hr
    have hkeep := step_returned hinv hr hst
    simp only [List.mem_cons, not_or]
    exact ⟨fun he => hkeep.2 he.symm, ih (inv_step hinv hst) hkeep.1⟩

theorem reaches_inv {tr : List Label} {s s' : SysState}
    (h : Reaches s tr s') : Inv s → Inv s' := by
  induction h with
  | refl s => exact id
  | step hst hrest ih => exact fun hinv => ih (inv_step hinv hst)

theorem reaches_append {t1 t2 : List Label} :
    ∀ {s s'' : SysState}, Reaches s (t1 ++ t2) s'' →
      ∃ m, Reaches s t1 m ∧ Reaches m t2 s'' := by
  induction t1 with
  | nil => exact fun h => ⟨_, .refl _, h⟩
  | cons l t1' ih =>
    intro s s'' h
    rw [List.cons_append] at h
    cases h with
    | step hst hrest =>
      obtain ⟨m, hm1, hm2⟩ := ih hrest
      exact ⟨m, .step hst hm1, hm2⟩

theorem stopRet_returned {s s' : SysState} (h : Step s .stopRet s') :
    s'.stopper = .returned := by
  cases h with
  | stopReturn h1 h2 => rfl

end watchmodel

/-- Claim C7: in every interleaved execution from the post-Watch state, no
`update` is delivered to the consumer after `Stop` has returned, even if a
poll was in flight when `Stop` was called (the model lets an in-flight poll
complete and publish after cancellation, but `Stop` only returns once the
worker has fully exited). In addition, a worker iteration whose poll fails
with the cancellation error logs and exits at the next loop check without
any backoff sleep. -/
theorem c7_no_update_after_stop :
    (∀ tr sf, watchmodel.Reaches watchmodel.init tr sf →
      ∀ t1 t2, tr = t1 ++ watchmodel.Label.stopRet :: t2 →
        watchmodel.Label.update ∉ t2) ∧
    (∀ (res : cfgconsul.PollResult) rest,
      cfgconsul.updateWorker ((false, .err true) :: (true, res) :: rest) =
        [cfgconsul.Event.logMsg]) := by
  constructor
  · intro tr sf hre t1 t2 htr
    subst htr
    obtain ⟨m, hm1, hm2⟩ := watchmodel.reaches_append hre
    cases hm2 with
    | step hst hrest =>
      have hr := watchmodel.stopRet_returned hst
      have hinv := watchmodel.inv_step
        (watchmodel.reaches_inv hm1 watchmodel.inv_init) hst
      exact watchmodel.no_update_after_returned hrest hinv hr
  · intro res rest; rfl

/-- Witness for claim C7: the concrete execution Stop-cancel, worker exit,
Stop return has no update after the stop return; a concrete cancelled-error
iteration produces only the log line. -/
theorem c7_no_update_after_stop_witness :
    watchmodel.Label.update ∉ ([] : List watchmodel.Label) ∧
    cfgconsul.updateWorker [(false, .err true), (true, .err false)] =
      [cfgconsul.Event.logMsg] := by
  constructor
  · exact c7_no_update_after_stop.1 [.tau, .tau, .stopRet] _
      (watchmodel.Reaches.step (watchmodel.Step.stopCancel watchmodel.init rfl)
        (watchmodel.Reaches.step (watchmodel.Step.checkExit _ rfl rfl)
          (watchmodel.Reaches.step (watchmodel.Step.stopReturn _ rfl rfl)
            (watchmodel.Reaches.refl _))))
      [.tau, .tau] [] rfl
  · exact c7_no_update_after_stop.2 (.err false) []

namespace gopath

/-- The element-processing core of Go `path.Clean` in its equivalent
segment form: iterate over the "/"-separated elements, dropping empty and
"." elements; a ".." element removes the previously kept element when one
is available (and is kept literally when there is nothing to remove and
the path is not rooted, or dropped when rooted). The kept elements are
accumulated in reverse. -/
def cleanSegs (rooted : Bool) : List (List Char) → List (List Char) → List (List Char)
  | acc, [] => acc.reverse
  | acc, s :: rest =>
    if s = [] ∨ s = ['.'] then cleanSegs rooted acc rest
    else if s = ['.', '.'] then
      match acc with
      | [] => cleanSegs rooted (if rooted then [] else [s]) rest
      | t :: acc' =>
        if t = ['.', '.'] ∧ rooted = false then cleanSegs rooted (s :: t :: acc') rest
        else cleanSegs rooted acc' rest
    else cleanSegs rooted (s :: acc) rest

/-- Go `path.Clean`: the empty path becomes "."; otherwise the elements
are processed by `cleanSegs` and re-joined, a leading "/" is preserved,
and an empty result becomes ".". -/
def Clean (p : List Char) : List Char :=
  if p = [] then ['.']
  else
    let rooted : Bool := decide (p.head? = some '/')
    let res :=
      if rooted then '/' :: joinSegs (cleanSegs rooted [] (splitChar '/' p))
      else joinSegs (cleanSegs rooted [] (splitChar '/' p))
    if res = [] then ['.'] else res

/-- The buffer-building loop of Go `path.Join`: append each element,
preceded by a separator once the buffer is non-empty; elements are skipped
only while the buffer and the element are both empty. -/
def joinBuf : List Char → List (List Char) → List Char
  | buf, [] => buf
  | buf, e :: rest =>
    if buf = [] ∧ e = [] then joinBuf buf rest
    else if buf = [] then joinBuf e rest
    else joinBuf (buf ++ '/' :: e) rest

/-- Go `path.Join` (used by the per-key `get` as
`path.Join(r.prefix, setName, paramName)`): the empty string when every
element is empty, otherwise the cleaned concatenation. -/
def Join (elems : List (List Char)) : List Char :=
  if elems.all List.isEmpty then [] else Clean (joinBuf [] elems)

end gopath

/-- A plain path segment: non-empty, separator-free, and not one of the
special "." and ".." elements rewritten by `path.Clean`. -/
abbrev goodSeg (s : List Char) : Prop :=
  s ≠ [] ∧ '/' ∉ s ∧ s ≠ ['.'] ∧ s ≠ ['.', '.']

/-- A normalized namespace as produced by `NewFromReference`: plain
segments joined by separators, with a trailing separator (e.g. "cfg/"). -/
def mkPfx (segs : List (List Char)) : List Char := joinSegs segs ++ ['/']

/-- Claim C5 (counterexample): with the namespace "cfg/", the empty set
name and the non-empty parameter name "a/b", joining, stripping and
splitting yields (set = "a", name = "b"), not the original pair
(set = "", name = "a/b"): the round-trip fails for names containing the
separator. -/
theorem c5_roundtrip_counterexample :
    cfgconsul.classifyKey (str "cfg/") (gopath.Join [str "cfg/", [], str "a/b"]) =
      .param (str "a") (str "b") ∧
    cfgconsul.KeyOutcome.param (str "a") (str "b") ≠ .param [] (str "a/b") := by
  constructor <;> decide

/-- `joinBuf` on exactly the three `path.Join` arguments of the per-key
`get`: with a non-empty first element the buffer is the plain
separator-interleaved concatenation. -/
theorem joinBuf_three (p s n : List Char) (hp : p ≠ []) :
    gopath.joinBuf [] [p, s, n] = p ++ '/' :: (s ++ '/' :: n) := by
  rw [gopath.joinBuf, if_neg (by simp [hp]), if_pos rfl]
  rw [gopath.joinBuf, if_neg (by simp [hp]), if_neg hp]
  rw [gopath.joinBuf, if_neg (by simp), if_neg (by simp [hp])]
  rw [gopath.joinBuf]
  simp

/-- Processing a separator-free non-empty non-special segment pushes it. -/
theorem cleanSegs_good_step (rooted : Bool) (s : List Char)
    (acc rest : List (List Char)) (hs : goodSeg s) :
    gopath.cleanSegs rooted acc (s :: rest) =
      gopath.cleanSegs rooted (s :: acc) rest := by
  obtain ⟨h1, _h2, h3, h4⟩ := hs
  rw [gopath.cleanSegs.eq_def]
  dsimp only
  rw [if_neg (by simp [h1, h3]), if_neg h4]

/-- Processing an empty element drops it. -/
theorem cleanSegs_empty_step (rooted : Bool) (acc rest : List (List Char)) :
    gopath.cleanSegs rooted acc ([] :: rest) = gopath.cleanSegs rooted acc rest := by
  rw [gopath.cleanSegs.eq_def]
  dsimp only
  rw [if_pos (Or.inl rfl)]

/-- The processed elements are the accumulator reversed. -/
theorem cleanSegs_nil (rooted : Bool) (acc : List (List Char)) :
    gopath.cleanSegs rooted acc [] = acc.reverse := by
  rw [gopath.cleanSegs.eq_def]

/-- A block of plain segments is pushed wholesale. -/
theorem cleanSegs_push (rooted : Bool) :
    ∀ (g acc rest : List (List Char)), (∀ s ∈ g, goodSeg s) →
      gopath.cleanSegs rooted acc (g ++ rest) =
        gopath.cleanSegs rooted (g.reverse ++ acc) rest := by
  intro g
  induction g with
  | nil => intro acc rest _; simp
  | cons s g' ih =>
    intro acc rest h
    rw [List.cons_append,
      cleanSegs_good_step rooted s acc (g' ++ rest) (h s (List.mem_cons_self s g')),
      ih (s :: acc) rest (fun t ht => h t (List.mem_cons_of_mem s ht))]
    simp

/-- `joinSegs` distributes over the concatenation of non-empty segment
lists, inserting one separator at the junction. -/
theorem joinSegs_append (sn : List (List Char)) (hsn : sn ≠ []) :
    ∀ g : List (List Char), g ≠ [] →
      joinSegs (g ++ sn) = joinSegs g ++ '/' :: joinSegs sn := by
  intro g
  induction g with
  | nil => intro h; exact absurd rfl h
  | cons a g' ih =>
    intro _
    cases g' with
    | nil =>
      cases sn with
      | nil => exact absurd rfl hsn
      | cons b sn' => simp [joinSegs]
    | cons b g'' =>
      calc joinSegs ((a :: b :: g'') ++ sn)
          = a ++ '/' :: joinSegs ((b :: g'') ++ sn) := by simp [joinSegs]
        _ = a ++ '/' :: (joinSegs (b :: g'') ++ '/' :: joinSegs sn) := by
            rw [ih (by simp)]
        _ = joinSegs (a :: b :: g'') ++ '/' :: joinSegs sn := by simp [joinSegs]

/-- Splitting the separator-interleaved join of separator-free segments
recovers the segments. -/
theorem splitChar_joinSegs :
    ∀ g : List (List Char), g ≠ [] → (∀ s ∈ g, '/' ∉ s) →
      splitChar '/' (joinSegs g) = g := by
  intro g
  induction g with
  | nil => intro h _; exact absurd rfl h
  | cons a g' ih =>
    intro _ h
    cases g' with
    | nil => simp [joinSegs, splitChar_eq_single '/' a (h a (by simp))]
    | cons b g'' =>
      rw [show joinSegs (a :: b :: g'') = a ++ '/' :: joinSegs (b :: g'') from by
            simp [joinSegs],
        splitChar_append, splitChar_eq_single '/' a (h a (by simp)),
        ih (by simp) (fun t ht => h t (List.mem_cons_of_mem a ht))]
      rfl

/-- The join of a segment list starting with a non-empty segment starts
with that segment's first character. -/
theorem joinSegs_cons_head (c : Char) (a' : List Char) (g : List (List Char)) :
    ∃ t, joinSegs ((c :: a') :: g) = c :: t := by
  cases g with
  | nil => exact ⟨a', rfl⟩
  | cons b g' => exact ⟨a' ++ '/' :: joinSegs (b :: g'), by simp [joinSegs]⟩

/-- Claim C5 (amended): for a namespace of the normalized form
"s1/s2/.../sk/" built from plain segments, a set name that is empty or a
plain segment, and a parameter name that is a plain segment (in particular
non-empty), joining namespace, set and name with `path.Join`, then
stripping the namespace and splitting, recovers exactly the original
(set, name) pair. A plain segment is non-empty, separator-free and not
"." or "..". -/
theorem c5_roundtrip_amended (segs : List (List Char)) (setName name : List Char)
    (hsegs : segs ≠ []) (hall : ∀ s ∈ segs, goodSeg s)
    (hset : setName = [] ∨ goodSeg setName) (hname : goodSeg name) :
    cfgconsul.classifyKey (mkPfx segs) (gopath.Join [mkPfx segs, setName, name]) =
      .param setName name := by
  obtain ⟨a, g, rfl⟩ : ∃ a g, segs = a :: g := by
    cases segs with
    | nil => exact absurd rfl hsegs
    | cons a g => exact ⟨a, g, rfl⟩
  obtain ⟨c, a', rfl⟩ : ∃ c a', a = c :: a' := by
    cases a with
    | nil => exact absurd rfl (hall [] (by simp)).1
    | cons c a' => exact ⟨c, a', rfl⟩
  have hc : c ≠ '/' := fun hcc =>
    (hall (c :: a') (by simp)).2.1 (List.mem_cons.mpr (Or.inl hcc.symm))
  have hPne : mkPfx ((c :: a') :: g) ≠ [] := by simp [mkPfx]
  have hjoin : gopath.Join [mkPfx ((c :: a') :: g), setName, name] =
      gopath.Clean (mkPfx ((c :: a') :: g) ++ '/' :: (setName ++ '/' :: name)) := by
    rw [gopath.Join, if_neg ?_, joinBuf_three _ _ _ hPne]
    simp only [List.all_eq_true]
    intro hallempty
    have h1 := hallempty (mkPfx ((c :: a') :: g)) (by simp)
    simp [mkPfx] at h1
  have hset_nosep : '/' ∉ setName := by
    rcases hset with hs | hs
    · subst hs; simp
    · exact hs.2.1
  have hsn2 : splitChar '/' (setName ++ '/' :: name) = [setName, name] := by
    rw [splitChar_append, splitChar_eq_single '/' setName hset_nosep,
      splitChar_eq_single '/' name hname.2.1]
    rfl
  have hA : splitChar '/' (joinSegs ((c :: a') :: g)) = (c :: a') :: g :=
    splitChar_joinSegs ((c :: a') :: g) (by simp) (fun t ht => (hall t ht).2.1)
  have hbufsplit : splitChar '/'
      (mkPfx ((c :: a') :: g) ++ '/' :: (setName ++ '/' :: name)) =
      ((c :: a') :: g) ++ ([] :: [setName, name]) := by
    have hshape : mkPfx ((c :: a') :: g) ++ '/' :: (setName ++ '/' :: name) =
        joinSegs ((c :: a') :: g) ++ '/' :: ([] ++ '/' :: (setName ++ '/' :: name)) := by
      simp [mkPfx]
    rw [hshape, splitChar_append, hA, splitChar_append, hsn2]
    rfl
  obtain ⟨t, ht⟩ := joinSegs_cons_head c a' g
  have hbufshape : mkPfx ((c :: a') :: g) ++ '/' :: (setName ++ '/' :: name) =
      c :: (t ++ '/' :: ('/' :: (setName ++ '/' :: name))) := by
    simp [mkPfx, ht]
  have hne : mkPfx ((c :: a') :: g) ++ '/' :: (setName ++ '/' :: name) ≠ [] := by
    rw [hbufshape]; simp
  have hhead : (mkPfx ((c :: a') :: g) ++ '/' :: (setName ++ '/' :: name)).head? =
      some c := by
    rw [hbufshape]; rfl
  have hrooted : decide ((mkPfx ((c :: a') :: g) ++
      '/' :: (setName ++ '/' :: name)).head? = some '/') = false := by
    rw [hhead]
    simp [hc]
  have hout : gopath.cleanSegs false []
      (splitChar '/' (mkPfx ((c :: a') :: g) ++ '/' :: (setName ++ '/' :: name))) =
      ((c :: a') :: g) ++ (if setName = [] then [name] else [setName, name]) := by
    rw [hbufsplit, cleanSegs_push false ((c :: a') :: g) [] ([] :: [setName, name]) hall,
      cleanSegs_empty_step]
    rcases hset with hs | hs
    · subst hs
      rw [cleanSegs_empty_step, cleanSegs_good_step false name _ _ hname, cleanSegs_nil]
      simp
    · rw [cleanSegs_good_step false setName _ _ hs,
        cleanSegs_good_step false name _ _ hname, cleanSegs_nil]
      simp [hs.1]
  have hsn_ne : (if setName = [] then [name] else [setName, name]) ≠
      ([] : List (List Char)) := by
    split <;> simp
  have hres : joinSegs (((c :: a') :: g) ++
      (if setName = [] then [name] else [setName, name])) =
      mkPfx ((c :: a') :: g) ++
        joinSegs (if setName = [] then [name] else [setName, name]) := by
    rw [joinSegs_append _ hsn_ne ((c :: a') :: g) (by simp)]
    simp [mkPfx]
  have hres_ne : joinSegs (((c :: a') :: g) ++
      (if setName = [] then [name] else [setName, name])) ≠ [] := by
    rw [hres]
    simp [hPne]
  have hclean : gopath.Clean (mkPfx ((c :: a') :: g) ++
      '/' :: (setName ++ '/' :: name)) =
      mkPfx ((c :: a') :: g) ++
        joinSegs (if setName = [] then [name] else [setName, name]) := by
    rw [gopath.Clean, if_neg hne]
    simp only [hrooted]
    simp only [Bool.false_eq_true, if_false]
    rw [hout, if_neg hres_ne, hres]
  rw [hjoin, hclean]
  rcases hset with hs | hs
  · subst hs
    rw [if_pos rfl, show joinSegs [name] = name from rfl]
    have hsplit1 : splitChar '/' name = [name] :=
      splitChar_eq_single '/' name hname.2.1
    simp [cfgconsul.classifyKey, trimPfx_append, hname.1, hsplit1]
  · rw [if_neg hs.1]
    rw [show joinSegs [setName, name] = setName ++ '/' :: name from by simp [joinSegs]]
    have hkne : setName ++ '/' :: name ≠ [] := by simp
    simp [cfgconsul.classifyKey, trimPfx_append, hkne, hsn2]

/-- Witness for the amended claim C5 at the namespace "cfg/", the set
"db" and the name "host". -/
theorem c5_roundtrip_amended_witness :
    cfgconsul.classifyKey (mkPfx [str "cfg"])
      (gopath.Join [mkPfx [str "cfg"], str "db", str "host"]) =
      .param (str "db") (str "host") :=
  c5_roundtrip_amended [str "cfg"] (str "db") (str "host") (by simp)
    (by decide) (Or.inr (by decide)) (by decide)
